import Mathlib

/-!
Verification of the module-dependency analyzer `modvis.py`.

Python strings are modelled as lists of characters (`PyStr`), Python dicts as
insertion-ordered association lists, and Python sets as insertion-ordered
duplicate-free lists (only membership matters for the proved statements).
Fallible Python code (raising `ValueError` / `KeyError`) is modelled with
`Except`.
-/

namespace Modvis

/-- Python strings, modelled as lists of characters. -/
abbrev PyStr := List Char

/-- Errors raised by the analyzer: `ValueError` on a filename without the
source suffix, `ValueError` on an invalid relative-import level, and
`KeyError` on a missing dict key. -/
inductive PyErr where
  | invalidInput
  | invalidLevel
  | keyError
deriving DecidableEq

deriving instance DecidableEq for Except

/-- The path separator `os.path.sep` (POSIX). -/
def sepChar : Char := '/'

/-- The literal `".py"`. -/
def pyExt : PyStr := ['.', 'p', 'y']

/-- The literal `"./"` (the `rel` prefix stripped by
`filename_to_module_name`). -/
def dotSep : PyStr := ['.', '/']

/-- The literal `".__init__"` appended by `add_dependency`. -/
def initSuffix : PyStr := ['.', '_', '_', 'i', 'n', 'i', 't', '_', '_']

/-- Python `s.rfind(ch)`: index of the last occurrence of `ch` in `s`,
`none` standing for Python's `-1`. -/
def rfindChar (ch : Char) : PyStr → Option Nat
  | [] => none
  | a :: rest =>
    match rfindChar ch rest with
    | some j => some (j + 1)
    | none => if a = ch then some 0 else none

/-- `split_module_name` from modvis.py:
`'fully.qualified.name' -> ('fully.qualified', 'name')`, splitting at the
last dot; with no dot the namespace part is empty. -/
def split_module_name (m : PyStr) : PyStr × PyStr :=
  match rfindChar '.' m with
  | none => ([], m)
  | some k => (m.take k, m.drop (k + 1))

/-- The loop of `resolve`: strip one trailing dot-segment per level; when no
dot remains the base becomes empty and the loop breaks. -/
def stripSegs (base : PyStr) : Nat → PyStr
  | 0 => base
  | n + 1 =>
    match rfindChar '.' base with
    | none => []
    | some k => stripSegs (base.take k) n

/-- `resolve` from modvis.py: the fully qualified name of `target_module`
in an import occurring in `current_module` with relative-import `level`.
Note the final step is Python's `'.'.join((base, target_module))`, which
always inserts a separator, also when `base` is empty. -/
def resolve (current_module target_module : PyStr) (level : Int) : Except PyErr PyStr :=
  if level < 0 then .error .invalidLevel
  else if level = 0 then .ok target_module
  else if level > (current_module.count '.' : Int) + 1 then .error .invalidLevel
  else .ok (stripSegs current_module level.toNat ++ '.' :: target_module)

/-- `filename_to_module_name` from modvis.py:
`'some/path/module.py' -> 'some.path.module'`; raises `ValueError` when the
path does not end in `".py"`. -/
def filename_to_module_name (fullpath : PyStr) : Except PyErr PyStr :=
  if fullpath.drop (fullpath.length - pyExt.length) ≠ pyExt then .error .invalidInput
  else
    let p1 := if fullpath.take dotSep.length = dotSep then fullpath.drop dotSep.length else fullpath
    let p2 := p1.take (p1.length - pyExt.length)
    .ok (p2.map (fun c => if c = sepChar then '.' else c))

/-- Python dict lookup `l.get(k)` on an association list. -/
def lookupKey {α β : Type} [DecidableEq α] (l : List (α × β)) (k : α) : Option β :=
  match l with
  | [] => none
  | e :: rest => if e.1 = k then some e.2 else lookupKey rest k

/-- Python dict assignment `l[k] = v` on an association list: replace the
first binding of `k`, or append a new binding. -/
def setKey {α β : Type} [DecidableEq α] (l : List (α × β)) (k : α) (v : β) : List (α × β) :=
  match l with
  | [] => [(k, v)]
  | e :: rest => if e.1 = k then (k, v) :: rest else e :: setKey rest k v

/-- Python `set.add` on a duplicate-free list. -/
def addToSet {α : Type} [DecidableEq α] (s : List α) (x : α) : List α :=
  if x ∈ s then s else s ++ [x]

/-- The two import shapes recognized by the visitor: `ast.Import` (a list
of imported dotted names) and `ast.ImportFrom` (an optional module
reference, a relative-import level, and the imported names). -/
inductive ImportStmt where
  | imp (names : List PyStr)
  | impFrom (mod : Option PyStr) (level : Int) (names : List PyStr)
deriving DecidableEq

/-- An analyzed source file: its path together with the import statements its
parsed syntax tree contains (parsing itself is out of scope). -/
structure PyFile where
  path : PyStr
  body : List ImportStmt
deriving DecidableEq

/-- The mutable state of `ImportVisitor`: `self.modules` (module name to
dependency set) and `self.fullpaths` (module name to file path). -/
structure Visitor where
  modules : List (PyStr × List PyStr)
  fullpaths : List (PyStr × PyStr)
deriving DecidableEq

/-- `ImportVisitor.add_dependency`: record that `current` depends on
`target`, and also on `target + ".__init__"` (the possible-package
over-approximation). -/
def add_dependency (v : Visitor) (current target : PyStr) : Visitor :=
  let deps := (lookupKey v.modules current).getD []
  ⟨setKey v.modules current (addToSet (addToSet deps target) (target ++ initSuffix)), v.fullpaths⟩

/-- `ImportVisitor.visit_Import`: one dependency per imported name. -/
def visit_Import (v : Visitor) (current : PyStr) (names : List PyStr) : Visitor :=
  names.foldl (fun acc n => add_dependency acc current n) v

/-- One iteration of the `from . import x, y` loop of `visit_ImportFrom`:
resolve one imported name and add a dependency on the resolved name. -/
def fromImportStep (current : PyStr) (level : Int) (acc : Visitor) (n : PyStr) :
    Except PyErr Visitor :=
  match resolve current n level with
  | .error e => .error e
  | .ok absname => .ok (add_dependency acc current absname)

/-- `ImportVisitor.visit_ImportFrom`: with an explicit module reference,
resolve it and add one dependency; with `from . import x, y` (no module),
resolve and add each name separately. -/
def visit_ImportFrom (v : Visitor) (current : PyStr) (mod : Option PyStr) (level : Int)
    (names : List PyStr) : Except PyErr Visitor :=
  match mod with
  | some mref =>
    match resolve current mref level with
    | .error e => .error e
    | .ok absname => .ok (add_dependency v current absname)
  | none => names.foldlM (fromImportStep current level) v

/-- The visitor's dispatch over the two recognized import statement shapes. -/
def visitStmt (v : Visitor) (current : PyStr) : ImportStmt → Except PyErr Visitor
  | .imp names => .ok (visit_Import v current names)
  | .impFrom mod level names => visit_ImportFrom v current mod level names

/-- One iteration of `ImportVisitor.analyze`: compute the module name,
register the Module Record in `fullpaths`, and visit the file's import
statements with `current_module` bound to that name. -/
def processFile (v : Visitor) (f : PyFile) : Except PyErr Visitor :=
  match filename_to_module_name f.path with
  | .error e => .error e
  | .ok m => f.body.foldlM (fun acc st => visitStmt acc m st) ⟨v.modules, setKey v.fullpaths m f.path⟩

/-- `ImportVisitor.analyze` continued from an arbitrary visitor state. -/
def analyzeFrom (v : Visitor) (files : List PyFile) : Except PyErr Visitor :=
  files.foldlM processFile v

/-- `ImportVisitor.analyze` as called from `__init__`: start from empty
`modules` and `fullpaths`. -/
def analyze (files : List PyFile) : Except PyErr Visitor :=
  analyzeFrom ⟨[], []⟩ files

/-- The dependency set of `m` in a visitor state (`self.modules[m]`, empty
when absent). -/
def depsOf (v : Visitor) (m : PyStr) : List PyStr :=
  (lookupKey v.modules m).getD []

/-- The key list of a visitor's Module Graph. -/
def keysOfV (v : Visitor) : List PyStr :=
  v.modules.map Prod.fst

/-- A Module Graph as consumed by the post-processing steps: the contents of
`self.modules`, an insertion-ordered dict from module name to dependency
set. -/
abbrev Graph := List (PyStr × List PyStr)

/-- The keys of a Module Graph, in dict iteration order. -/
def keysOf (g : Graph) : List PyStr := g.map Prod.fst

/-- Number of graph keys not yet in `seen`; the termination measure of the
depth-first walk of `detect_cycles`. -/
def unseenCount (g : Graph) (seen : List PyStr) : Nat :=
  ((keysOf g).toFinset \ seen.toFinset).card

mutual
/-- The nested `walk` of `ImportVisitor.detect_cycles`.  Both `seen` and
`trace` are shared, append-only state of one root's walk; the model threads
them explicitly: on success `walk` returns the nodes newly added to `seen`
(to be consed onto the caller's `seen`) together with the updated `trace`;
on a revisit it raises `CycleDetected` carrying the trace, modelled as
`.error`. -/
def walk (g : Graph) (m : PyStr) (seen trace : List PyStr) :
    Except (List PyStr) (List PyStr × List PyStr) :=
  match hl : lookupKey g m with
  | none => .ok ([], trace)
  | some deps =>
    if hs : m ∈ seen then .error (trace ++ [m])
    else
      match walkList g deps (m :: seen) (trace ++ [m]) with
      | .error t => .error t
      | .ok (delta, tr2) => .ok (m :: delta, tr2)
termination_by (unseenCount g seen, 0)
decreasing_by
simp_wf
have hm : m ∈ keysOf g := by
  have hgen : ∀ (l : Graph), lookupKey l m = some deps → m ∈ l.map Prod.fst := by
    intro l
    induction l with
    | nil => intro h; simp [lookupKey] at h
    | cons e rest ih =>
      intro h
      simp only [lookupKey] at h
      by_cases he : e.1 = m
      · simp [List.map_cons, he]
      · simp only [he, if_false] at h
        simp only [List.map_cons, List.mem_cons]
        exact Or.inr (ih h)
  exact hgen g hl
have hsub : (keysOf g).toFinset \ (m :: seen).toFinset ⊆ (keysOf g).toFinset \ seen.toFinset := by
  apply Finset.sdiff_subset_sdiff (le_refl _)
  rw [List.toFinset_cons]
  exact Finset.subset_insert _ _
have hu : unseenCount g (m :: seen) < unseenCount g seen := by
  apply Finset.card_lt_card
  rw [Finset.ssubset_iff_of_subset hsub]
  refine ⟨m, ?_, ?_⟩
  · simp only [Finset.mem_sdiff, List.mem_toFinset]
    exact ⟨hm, hs⟩
  · simp [List.toFinset_cons]
exact Prod.Lex.left _ _ hu

/-- The `for d in deps: walk(d, trace=trace)` loop of `detect_cycles`,
threading the growing `seen` (as the accumulated deltas) and `trace`. -/
def walkList (g : Graph) (ds : List PyStr) (seen trace : List PyStr) :
    Except (List PyStr) (List PyStr × List PyStr) :=
  match ds with
  | [] => .ok ([], trace)
  | d :: rest =>
    match walk g d seen trace with
    | .error t => .error t
    | .ok (delta, tr2) =>
      match walkList g rest (delta ++ seen) tr2 with
      | .error t => .error t
      | .ok (delta2, tr3) => .ok (delta2 ++ delta, tr3)
termination_by (unseenCount g seen, ds.length + 1)
decreasing_by
· simp_wf
  exact Prod.Lex.right _ (by omega)
· simp_wf
  have hle : unseenCount g (delta ++ seen) ≤ unseenCount g seen := by
    apply Finset.card_le_card
    apply Finset.sdiff_subset_sdiff (le_refl _)
    rw [List.toFinset_append]
    exact Finset.subset_union_right
  rcases Nat.lt_or_ge (unseenCount g (delta ++ seen)) (unseenCount g seen) with h | h
  · exact Prod.Lex.left _ _ h
  · have heq : unseenCount g (delta ++ seen) = unseenCount g seen := le_antisymm hle h
    rw [heq]
    exact Prod.Lex.right _ (by omega)
end

/-- The `except CycleDetected` handler of `detect_cycles`: from the trace
carried by the exception, compute `offender = names[-1]`,
`k = names.index(offender)`, and report `(names[:k], names[k:])`. -/
def rootReport : Except (List PyStr) (List PyStr × List PyStr) → Option (List PyStr × List PyStr)
  | .ok _ => none
  | .error names =>
    match names.getLast? with
    | none => none
    | some offender => some (names.take (names.indexOf offender), names.drop (names.indexOf offender))

/-- `ImportVisitor.detect_cycles`: for every graph key as root, walk
depth-first with a fresh `seen` and trace, and collect one
`(prefix, cycle)` entry per root whose walk raised `CycleDetected`. -/
def detect_cycles (g : Graph) : List (List PyStr × List PyStr) :=
  (keysOf g).filterMap (fun root => rootReport (walk g root [] []))

/-- Fuel-bounded variant of the recursive walk, recursing on an explicit
depth bound; `none` means the bound was exhausted.  `Sum.inl m` performs
`walk` on node `m`, `Sum.inr ds` performs the dependency loop `walkList`. -/
def stepF (g : Graph) : Nat → (PyStr ⊕ List PyStr) → List PyStr → List PyStr →
    Option (Except (List PyStr) (List PyStr × List PyStr))
  | 0, _, _, _ => none
  | n + 1, .inl m, seen, trace =>
    match lookupKey g m with
    | none => some (.ok ([], trace))
    | some deps =>
      if m ∈ seen then some (.error (trace ++ [m]))
      else
        match stepF g n (.inr deps) (m :: seen) (trace ++ [m]) with
        | none => none
        | some (.error t) => some (.error t)
        | some (.ok (delta, tr2)) => some (.ok (m :: delta, tr2))
  | _ + 1, .inr [], _, trace => some (.ok ([], trace))
  | n + 1, .inr (d :: rest), seen, trace =>
    match stepF g n (.inl d) seen trace with
    | none => none
    | some (.error t) => some (.error t)
    | some (.ok (delta, tr2)) =>
      match stepF g n (.inr rest) (delta ++ seen) tr2 with
      | none => none
      | some (.error t) => some (.error t)
      | some (.ok (delta2, tr3)) => some (.ok (delta2 ++ delta, tr3))

/-- An upper bound on the size of any dependency set stored in the graph. -/
def gBound (g : Graph) : Nat :=
  g.foldr (fun e acc => max e.2.length acc) 0

/-- Sufficient fuel for `stepF` to simulate the recursive walk from the
given job and `seen` set. -/
def fuelFor (g : Graph) (job : PyStr ⊕ List PyStr) (seen : List PyStr) : Nat :=
  match job with
  | .inl _ => unseenCount g seen * (gBound g + 2)
  | .inr ds => unseenCount g seen * (gBound g + 2) + ds.length + 1

/-- The recursive walk, dispatched on a `stepF`-style job. -/
def walkSum (g : Graph) (job : PyStr ⊕ List PyStr) (seen trace : List PyStr) :
    Except (List PyStr) (List PyStr × List PyStr) :=
  match job with
  | .inl m => walk g m seen trace
  | .inr ds => walkList g ds seen trace

/-- Fuel-bounded variant of `detect_cycles`: run the fuel-bounded walk from
every root; `none` if any root exhausts the bound. -/
def detectCyclesF (g : Graph) (n : Nat) : Option (List (List PyStr × List PyStr)) :=
  (keysOf g).foldr (fun root acc =>
    match stepF g n (.inl root) [] [], acc with
    | some r, some rest => some ((rootReport r).toList ++ rest)
    | _, _ => none) (some [])

/-- A graph node as materialized by `prepare_graph` (field `nspace` models
the `namespace` attribute; `flavor` is the constant `MODULE` and is
omitted). -/
structure Node where
  nspace : PyStr
  name : PyStr
  filename : PyStr
  defined : Bool
deriving DecidableEq

/-- Modelled from the spec: `pyan.node.Node.get_name` is not part of
modvis.py (it lives in the external `pyan.node` collaborator); per the spec
a node's qualified name is its namespace joined to its leaf name with a dot,
with an empty namespace contributing no prefix segment. -/
def Node.getName (n : Node) : PyStr :=
  if n.nspace = [] then n.name else n.nspace ++ '.' :: n.name

/-- `os.path.dirname` for the paths at hand: everything before the last
separator, with trailing separators stripped unless the head is all
separators. -/
def dirname (p : PyStr) : PyStr :=
  match rfindChar sepChar p with
  | none => []
  | some k =>
    let head := p.take (k + 1)
    if head.any (fun c => c ≠ sepChar) then (head.reverse.dropWhile (fun c => c = sepChar)).reverse
    else head

/-- The node built by `prepare_graph` for module `m`: namespace and leaf from
`split_module_name`, colored by the containing directory of the module's
source file (`KeyError` if `m` has no Module Record). -/
def mkNodeFor (fullpaths : List (PyStr × PyStr)) (m : PyStr) : Except PyErr Node :=
  match lookupKey fullpaths m with
  | none => .error .keyError
  | some fp => .ok ⟨(split_module_name m).1, (split_module_name m).2, dirname fp, true⟩

/-- The first loop of `prepare_graph`: one singleton node list per graph
key. -/
def buildNodes (fullpaths : List (PyStr × PyStr)) (entries : List (PyStr × List PyStr))
    (acc : List (PyStr × List Node)) : Except PyErr (List (PyStr × List Node)) :=
  match entries with
  | [] => .ok acc
  | e :: rest =>
    match mkNodeFor fullpaths e.1 with
    | .error err => .error err
    | .ok n => buildNodes fullpaths rest (setKey acc e.1 (n :: []))

/-- `add_uses_edge` from `prepare_graph`. -/
def addUsesEdge (edges : List (Node × List Node)) (nf nt : Node) : List (Node × List Node) :=
  setKey edges nf (addToSet ((lookupKey edges nf).getD []) nt)

/-- The second loop of `prepare_graph`: for every dependency pair, add a uses
edge when both endpoints have a materialized (non-empty) node list; silently
drop the pair otherwise. -/
def buildEdges (nodes : List (PyStr × List Node)) (entries : List (PyStr × List PyStr))
    (acc : List (Node × List Node)) : List (Node × List Node) :=
  match entries with
  | [] => acc
  | e :: rest =>
    buildEdges nodes rest (e.2.foldl (fun acc2 d =>
      match lookupKey nodes e.1, lookupKey nodes d with
      | some (nf :: _), some (nt :: _) => addUsesEdge acc2 nf nt
      | _, _ => acc2) acc)

/-- `ImportVisitor.prepare_graph`: materialize `self.nodes` and
`self.uses_edges` from the Module Graph. -/
def prepare_graph (v : Visitor) :
    Except PyErr (List (PyStr × List Node) × List (Node × List Node)) :=
  match buildNodes v.fullpaths v.modules [] with
  | .error e => .error e
  | .ok nodes => .ok (nodes, buildEdges nodes v.modules [])

/-- `x` is one of the dependency names statement `st` adds under module
`current`: a (resolved) target or its `".__init__"` marker. -/
def stmtAdds (current : PyStr) (st : ImportStmt) (x : PyStr) : Prop :=
  match st with
  | .imp names => ∃ n ∈ names, x = n ∨ x = n ++ initSuffix
  | .impFrom (some mref) level _ =>
    ∃ a, resolve current mref level = .ok a ∧ (x = a ∨ x = a ++ initSuffix)
  | .impFrom none level names =>
    ∃ n ∈ names, ∃ a, resolve current n level = .ok a ∧ (x = a ∨ x = a ++ initSuffix)

/-- Statement `st` records at least one dependency when visited
successfully. -/
def stmtKeyAdds : ImportStmt → Prop
  | .imp names => names ≠ []
  | .impFrom (some _) _ _ => True
  | .impFrom none _ names => names ≠ []

/-- File `f` has module name `m` and some statement of its body adds
dependency name `x`. -/
def fileAdds (f : PyFile) (m x : PyStr) : Prop :=
  filename_to_module_name f.path = .ok m ∧ ∃ st ∈ f.body, stmtAdds m st x

/-- File `f` has module name `m` and records at least one dependency. -/
def fileKeyAdds (f : PyFile) (m : PyStr) : Prop :=
  filename_to_module_name f.path = .ok m ∧ ∃ st ∈ f.body, stmtKeyAdds st

/-- File `f` registers the Module Record for name `m`. -/
def fileReg (f : PyFile) (m : PyStr) : Prop :=
  filename_to_module_name f.path = .ok m

/-- Whether an `Except` computation returned normally. -/
def exceptIsOk {ε α : Type} : Except ε α → Bool
  | .ok _ => true
  | .error _ => false

/-! Association-list and set lemmas. -/

theorem lookupKey_mem {α β : Type} [DecidableEq α] {l : List (α × β)} {k : α} {v : β}
    (h : lookupKey l k = some v) : (k, v) ∈ l := by
  induction l with
  | nil => simp [lookupKey] at h
  | cons e rest ih =>
    simp only [lookupKey] at h
    by_cases he : e.1 = k
    · rw [if_pos he] at h
      injection h with h2
      have : e = (k, v) := by
        cases e
        simp only [Prod.mk.injEq]
        exact ⟨he, h2⟩
      rw [← this]
      exact List.mem_cons_self e rest
    · rw [if_neg he] at h
      exact List.mem_cons_of_mem e (ih h)

theorem lookupKey_mem_keys {α β : Type} [DecidableEq α] {l : List (α × β)} {k : α} {v : β}
    (h : lookupKey l k = some v) : k ∈ l.map Prod.fst :=
  List.mem_map.mpr ⟨(k, v), lookupKey_mem h, rfl⟩

theorem lookupKey_setKey {α β : Type} [DecidableEq α] (l : List (α × β)) (k k' : α) (v : β) :
    lookupKey (setKey l k v) k' = if k = k' then some v else lookupKey l k' := by
  induction l with
  | nil => simp [setKey, lookupKey]
  | cons e rest ih =>
    by_cases he : e.1 = k
    · by_cases hk : k = k'
      · simp [setKey, lookupKey, he, hk]
      · have hek : ¬ e.1 = k' := fun hh => hk (he.symm.trans hh)
        simp [setKey, lookupKey, he, hk, hek]
    · by_cases hk : k = k'
      · subst hk
        simp [setKey, lookupKey, he, ih]
      · simp [setKey, lookupKey, he, hk, ih]

theorem mem_setKey {α β : Type} [DecidableEq α] {l : List (α × β)} {k : α} {v : β} {p : α × β}
    (h : p ∈ setKey l k v) : p ∈ l ∨ p = (k, v) := by
  induction l with
  | nil => simp [setKey] at h; exact Or.inr h
  | cons e rest ih =>
    simp only [setKey] at h
    by_cases he : e.1 = k
    · rw [if_pos he] at h
      rcases List.mem_cons.mp h with h1 | h1
      · exact Or.inr h1
      · exact Or.inl (List.mem_cons_of_mem e h1)
    · rw [if_neg he] at h
      rcases List.mem_cons.mp h with h1 | h1
      · exact Or.inl (h1 ▸ List.mem_cons_self e rest)
      · rcases ih h1 with h2 | h2
        · exact Or.inl (List.mem_cons_of_mem e h2)
        · exact Or.inr h2

theorem keys_setKey {α β : Type} [DecidableEq α] (l : List (α × β)) (k : α) (v : β) (m : α) :
    m ∈ (setKey l k v).map Prod.fst ↔ m ∈ l.map Prod.fst ∨ m = k := by
  induction l with
  | nil => simp [setKey]
  | cons e rest ih =>
    simp only [setKey]
    by_cases he : e.1 = k
    · rw [if_pos he]
      simp only [List.map_cons, List.mem_cons, he]
      tauto
    · rw [if_neg he]
      simp only [List.map_cons, List.mem_cons, ih]
      tauto

theorem mem_addToSet {α : Type} [DecidableEq α] (s : List α) (x y : α) :
    x ∈ addToSet s y ↔ x ∈ s ∨ x = y := by
  unfold addToSet
  by_cases hy : y ∈ s
  · rw [if_pos hy]
    constructor
    · exact Or.inl
    · rintro (h | h)
      · exact h
      · rw [h]; exact hy
  · rw [if_neg hy]
    simp [List.mem_append]

/-! Lemmas about `rfindChar` and `split_module_name`. -/

theorem rfindChar_none_iff (ch : Char) (m : PyStr) :
    rfindChar ch m = none ↔ ch ∉ m := by
  induction m with
  | nil => simp [rfindChar]
  | cons a rest ih =>
    cases h : rfindChar ch rest with
    | some j =>
      have hmem : ch ∈ rest := by
        by_contra hc
        exact Option.noConfusion ((ih.mpr hc).symm.trans h)
      simp [rfindChar, h, hmem]
    | none =>
      have hrest : ch ∉ rest := ih.mp h
      by_cases ha : a = ch
      · simp [rfindChar, h, ha]
      · have ha2 : ¬ ch = a := fun hh => ha hh.symm
        simp [rfindChar, h, ha, ha2, hrest]

theorem rfindChar_some_split (ch : Char) (m : PyStr) (k : Nat)
    (h : rfindChar ch m = some k) :
    m.take k ++ ch :: m.drop (k + 1) = m ∧ ch ∉ m.drop (k + 1) := by
  induction m generalizing k with
  | nil => simp [rfindChar] at h
  | cons a rest ih =>
    simp only [rfindChar] at h
    cases h2 : rfindChar ch rest with
    | some j =>
      rw [h2] at h
      injection h with h3
      rcases ih j h2 with ⟨hsplit, hnot⟩
      rw [← h3]
      constructor
      · simp only [List.take_succ_cons, List.drop_succ_cons]
        rw [List.cons_append, hsplit]
      · simpa using hnot
    | none =>
      rw [h2] at h
      by_cases ha : a = ch
      · rw [if_pos ha] at h
        injection h with h3
        rw [← h3]
        simp only [List.take_zero, List.drop_succ_cons, List.drop_zero, List.nil_append]
        exact ⟨by rw [ha], (rfindChar_none_iff ch rest).mp h2⟩
      · rw [if_neg ha] at h
        exact absurd h (by simp)

/-- C10: `split_module_name` splits at the last dot: for a name containing a
dot, the namespace part, a dot, and the leaf recombine to the input and the
leaf is dot-free; for a dot-free name the namespace part is empty and the
leaf is the whole input. -/
theorem c10_split_module_name (m : PyStr) :
    ('.' ∈ m → (split_module_name m).1 ++ '.' :: (split_module_name m).2 = m ∧
      '.' ∉ (split_module_name m).2) ∧
    ('.' ∉ m → split_module_name m = ([], m)) := by
  constructor
  · intro hmem
    cases h : rfindChar '.' m with
    | none => exact absurd ((rfindChar_none_iff '.' m).mp h) (not_not.mpr hmem)
    | some k =>
      have := rfindChar_some_split '.' m k h
      simp only [split_module_name, h]
      exact this
  · intro hmem
    have h : rfindChar '.' m = none := (rfindChar_none_iff '.' m).mpr hmem
    simp [split_module_name, h]

/-- Witness for C10 at the concrete names `"a.b"` and `"ab"`. -/
theorem c10_split_module_name_witness :
    ((split_module_name ['a', '.', 'b']).1 ++ '.' :: (split_module_name ['a', '.', 'b']).2
        = ['a', '.', 'b'] ∧
      '.' ∉ (split_module_name ['a', '.', 'b']).2) ∧
    split_module_name ['a', 'b'] = ([], ['a', 'b']) :=
  ⟨(c10_split_module_name ['a', '.', 'b']).1 (by decide),
    (c10_split_module_name ['a', 'b']).2 (by decide)⟩

/-- C7: `resolve` returns normally exactly when the level is non-negative
and at most the namespace depth of the current module (its dot count plus
one); otherwise it raises the invalid-level error. -/
theorem c7_resolve_level_validation (current target : PyStr) (level : Int) :
    exceptIsOk (resolve current target level) = true ↔
      0 ≤ level ∧ level ≤ (current.count '.' : Int) + 1 := by
  unfold resolve
  split_ifs with h1 h2 h3
  · exact iff_of_false (by simp [exceptIsOk]) (by omega)
  · exact iff_of_true (by simp [exceptIsOk]) (by omega)
  · exact iff_of_false (by simp [exceptIsOk]) (by omega)
  · exact iff_of_true (by simp [exceptIsOk]) (by omega)

/-- C3 evaluation: relative resolution from `"a.b.c"` strips one trailing
segment per level; at level 3 the base becomes empty and the code's
`'.'.join` still inserts the separator, returning `".d"` (with a leading
dot) rather than `"d"`. -/
theorem c3_resolve_examples :
    resolve ['a', '.', 'b', '.', 'c'] ['d'] 1 = .ok ['a', '.', 'b', '.', 'd'] ∧
    resolve ['a', '.', 'b', '.', 'c'] ['d'] 2 = .ok ['a', '.', 'd'] ∧
    resolve ['a', '.', 'b', '.', 'c'] ['d'] 3 = .ok ['.', 'd'] ∧
    resolve ['a', '.', 'b', '.', 'c'] ['d'] 3 ≠ .ok ['d'] := by
  refine ⟨?_, ?_, ?_, ?_⟩ <;> decide

/-! Lemmas connecting the fuel-bounded walk `stepF` to the recursive walk. -/

theorem walk_unfold (g : Graph) (m : PyStr) (seen trace : List PyStr) :
    walk g m seen trace =
      match lookupKey g m with
      | none => .ok ([], trace)
      | some deps =>
        if m ∈ seen then .error (trace ++ [m])
        else
          match walkList g deps (m :: seen) (trace ++ [m]) with
          | .error t => .error t
          | .ok (delta, tr2) => .ok (m :: delta, tr2) := by
  rw [walk]
  cases hl : lookupKey g m with
  | none => rfl
  | some deps =>
    by_cases hs : m ∈ seen <;> simp [hs]

theorem walkList_nil (g : Graph) (seen trace : List PyStr) :
    walkList g [] seen trace = .ok ([], trace) := by
  rw [walkList]

theorem walkList_cons (g : Graph) (d : PyStr) (rest seen trace : List PyStr) :
    walkList g (d :: rest) seen trace =
      match walk g d seen trace with
      | .error t => .error t
      | .ok (delta, tr2) =>
        match walkList g rest (delta ++ seen) tr2 with
        | .error t => .error t
        | .ok (delta2, tr3) => .ok (delta2 ++ delta, tr3) := by
  rw [walkList]

theorem lookupKey_gBound {g : Graph} {m : PyStr} {ds : List PyStr}
    (h : lookupKey g m = some ds) : ds.length ≤ gBound g := by
  induction g with
  | nil => simp [lookupKey] at h
  | cons e rest ih =>
    simp only [lookupKey] at h
    by_cases he : e.1 = m
    · rw [if_pos he] at h
      injection h with h2
      exact h2 ▸ le_max_left _ _
    · rw [if_neg he] at h
      exact le_trans (ih h) (le_max_right _ _)

theorem unseen_lt {g : Graph} {m : PyStr} {seen : List PyStr}
    (hm : m ∈ keysOf g) (hs : m ∉ seen) :
    unseenCount g (m :: seen) < unseenCount g seen := by
  have hsub : (keysOf g).toFinset \ (m :: seen).toFinset ⊆
      (keysOf g).toFinset \ seen.toFinset := by
    apply Finset.sdiff_subset_sdiff (le_refl _)
    rw [List.toFinset_cons]
    exact Finset.subset_insert _ _
  apply Finset.card_lt_card
  rw [Finset.ssubset_iff_of_subset hsub]
  refine ⟨m, ?_, ?_⟩
  · simp only [Finset.mem_sdiff, List.mem_toFinset]
    exact ⟨hm, hs⟩
  · simp [List.toFinset_cons]

theorem unseen_mono (g : Graph) (delta seen : List PyStr) :
    unseenCount g (delta ++ seen) ≤ unseenCount g seen := by
  apply Finset.card_le_card
  apply Finset.sdiff_subset_sdiff (le_refl _)
  rw [List.toFinset_append]
  exact Finset.subset_union_right

theorem stepF_agree : ∀ (n : Nat) (g : Graph) (job : PyStr ⊕ List PyStr) (seen trace : List PyStr),
    fuelFor g job seen < n → stepF g n job seen trace = some (walkSum g job seen trace) := by
  intro n
  induction n using Nat.strong_induction_on with
  | _ n ih =>
    intro g job seen trace h
    cases n with
    | zero => exact absurd h (Nat.not_lt_zero _)
    | succ n =>
      rcases job with m | ds
      · cases hl : lookupKey g m with
        | none => simp [stepF, hl, walkSum, walk_unfold]
        | some deps =>
          by_cases hs : m ∈ seen
          · simp [stepF, hl, hs, walkSum, walk_unfold]
          · have hm : m ∈ keysOf g := lookupKey_mem_keys hl
            have hd : deps.length ≤ gBound g := lookupKey_gBound hl
            have hu : unseenCount g (m :: seen) < unseenCount g seen := unseen_lt hm hs
            have hmul : (unseenCount g (m :: seen) + 1) * (gBound g + 2) ≤
                unseenCount g seen * (gBound g + 2) := Nat.mul_le_mul_right _ hu
            have hexp : (unseenCount g (m :: seen) + 1) * (gBound g + 2) =
                unseenCount g (m :: seen) * (gBound g + 2) + (gBound g + 2) := by ring
            have hfuel : fuelFor g (.inr deps) (m :: seen) < n := by
              simp only [fuelFor] at h ⊢
              linarith
            have hrec := ih n (Nat.lt_succ_self n) g (.inr deps) (m :: seen) (trace ++ [m]) hfuel
            simp only [walkSum] at hrec ⊢
            cases hw : walkList g deps (m :: seen) (trace ++ [m]) with
            | error t => simp [stepF, hl, hs, hrec, hw, walk_unfold]
            | ok p =>
              rcases p with ⟨delta, tr2⟩
              simp [stepF, hl, hs, hrec, hw, walk_unfold]
      · cases ds with
        | nil => simp [stepF, walkSum, walkList_nil]
        | cons d rest =>
          have hfuel1 : fuelFor g (.inl d) seen < n := by
            simp only [fuelFor, List.length_cons] at h ⊢
            omega
          have h1 := ih n (Nat.lt_succ_self n) g (.inl d) seen trace hfuel1
          simp only [walkSum] at h1 ⊢
          cases hw : walk g d seen trace with
          | error t => simp [stepF, h1, hw, walkList_cons]
          | ok p =>
            rcases p with ⟨delta, tr2⟩
            have hmono : unseenCount g (delta ++ seen) ≤ unseenCount g seen :=
              unseen_mono g delta seen
            have hmul := Nat.mul_le_mul_right (gBound g + 2) hmono
            have hfuel2 : fuelFor g (.inr rest) (delta ++ seen) < n := by
              simp only [fuelFor, List.length_cons] at h ⊢
              linarith
            have h2 := ih n (Nat.lt_succ_self n) g (.inr rest) (delta ++ seen) tr2 hfuel2
            simp only [walkSum] at h2
            cases hw2 : walkList g rest (delta ++ seen) tr2 with
            | error t => simp [stepF, h1, hw, h2, hw2, walkList_cons]
            | ok p2 =>
              rcases p2 with ⟨delta2, tr3⟩
              simp [stepF, h1, hw, h2, hw2, walkList_cons]

theorem detect_cycles_agree (g : Graph) (n : Nat)
    (h : unseenCount g [] * (gBound g + 2) < n) :
    detectCyclesF g n = some (detect_cycles g) := by
  have hroot : ∀ root, stepF g n (.inl root) [] [] = some (walk g root [] []) := by
    intro root
    have hfuel : fuelFor g (.inl root) [] < n := by
      simp only [fuelFor]
      exact h
    have := stepF_agree n g (.inl root) [] [] hfuel
    simpa [walkSum] using this
  unfold detectCyclesF detect_cycles
  generalize keysOf g = l
  induction l with
  | nil => simp
  | cons r t ih =>
    simp only [List.foldr_cons, List.filterMap_cons, hroot r, ih]
    cases hr : rootReport (walk g r [] []) with
    | none => simp [hr]
    | some e => simp [hr]

/-- C8: `detect_cycles` terminates on every finite Module Graph: some finite
recursion-depth bound suffices for the fuel-bounded walk to complete from
every root and compute exactly the recursive walk's report. -/
theorem c8_detect_cycles_terminating (g : Graph) :
    ∃ n, detectCyclesF g n = some (detect_cycles g) :=
  ⟨unseenCount g [] * (gBound g + 2) + 1, detect_cycles_agree g _ (Nat.lt_succ_self _)⟩

/-- C4: on the mutual-import graph `{a: {b}, b: {a}}` the report has, per
root, the cycle `[a, b, a]` resp. `[b, a, b]` with empty prefix, and a
self-import is reported as the one-node cycle `[a, a]` with empty prefix. -/
theorem c4_mutual_and_self_cycles :
    detect_cycles [(['a'], [['b']]), (['b'], [['a']])] =
      [([], [['a'], ['b'], ['a']]), ([], [['b'], ['a'], ['b']])] ∧
    detect_cycles [(['a'], [['a']])] = [([], [['a'], ['a']])] := by
  constructor
  · have h := detect_cycles_agree [(['a'], [['b']]), (['b'], [['a']])] 20 (by decide)
    have h2 : detectCyclesF [(['a'], [['b']]), (['b'], [['a']])] 20 =
        some [([], [['a'], ['b'], ['a']]), ([], [['b'], ['a'], ['b']])] := by decide
    exact (Option.some.inj (h2.symm.trans h)).symm
  · have h := detect_cycles_agree [(['a'], [['a']])] 20 (by decide)
    have h2 : detectCyclesF [(['a'], [['a']])] 20 = some [([], [['a'], ['a']])] := by decide
    exact (Option.some.inj (h2.symm.trans h)).symm

/-- C1 evaluation at a failing input: on the acyclic diamond
`{a: {b, c}, b: {d}, c: {d}, d: {}}` the report is not empty — the walk's
`seen` set is scoped to the whole root walk rather than to the active path,
so the reconvergent revisit of `d` is reported as the bogus cycle
`[d, c, d]` with prefix `[a, b]`. -/
theorem c1_diamond_false_positive :
    detect_cycles [(['a'], [['b'], ['c']]), (['b'], [['d']]), (['c'], [['d']]), (['d'], [])] =
      [([['a'], ['b']], [['d'], ['c'], ['d']])] := by
  have h := detect_cycles_agree
    [(['a'], [['b'], ['c']]), (['b'], [['d']]), (['c'], [['d']]), (['d'], [])] 20 (by decide)
  have h2 : detectCyclesF
      [(['a'], [['b'], ['c']]), (['b'], [['d']]), (['c'], [['d']]), (['d'], [])] 20 =
      some [([['a'], ['b']], [['d'], ['c'], ['d']])] := by decide
  exact (Option.some.inj (h2.symm.trans h)).symm

/-! Characterization of the Dependency Collector's state updates. -/

theorem depsOf_add_dependency (v : Visitor) (c t m x : PyStr) :
    x ∈ depsOf (add_dependency v c t) m ↔
      x ∈ depsOf v m ∨ (m = c ∧ (x = t ∨ x = t ++ initSuffix)) := by
  unfold depsOf add_dependency
  simp only [lookupKey_setKey]
  by_cases hm : c = m
  · subst hm
    rw [if_pos rfl]
    simp only [Option.getD_some, mem_addToSet]
    tauto
  · have hm2 : ¬ m = c := fun hh => hm hh.symm
    rw [if_neg hm]
    simp [hm2]

theorem keys_add_dependency (v : Visitor) (c t m : PyStr) :
    m ∈ keysOfV (add_dependency v c t) ↔ m ∈ keysOfV v ∨ m = c := by
  unfold keysOfV add_dependency
  exact keys_setKey _ _ _ m

theorem fullpaths_add_dependency (v : Visitor) (c t : PyStr) :
    (add_dependency v c t).fullpaths = v.fullpaths := rfl

theorem depsOf_foldl_add (ts : List PyStr) (v : Visitor) (c m x : PyStr) :
    x ∈ depsOf (ts.foldl (fun acc t => add_dependency acc c t) v) m ↔
      x ∈ depsOf v m ∨ (m = c ∧ ∃ t ∈ ts, x = t ∨ x = t ++ initSuffix) := by
  induction ts generalizing v with
  | nil => simp
  | cons t rest ih =>
    rw [List.foldl_cons, ih, depsOf_add_dependency]
    constructor
    · rintro ((h1 | ⟨h1, h2⟩) | ⟨h1, t', ht', h2⟩)
      · exact Or.inl h1
      · exact Or.inr ⟨h1, t, List.mem_cons_self t rest, h2⟩
      · exact Or.inr ⟨h1, t', List.mem_cons_of_mem t ht', h2⟩
    · rintro (h1 | ⟨h1, t', ht', h2⟩)
      · exact Or.inl (Or.inl h1)
      · rcases List.mem_cons.mp ht' with he | he
        · subst he
          exact Or.inl (Or.inr ⟨h1, h2⟩)
        · exact Or.inr ⟨h1, t', he, h2⟩

theorem keys_foldl_add (ts : List PyStr) (v : Visitor) (c m : PyStr) :
    m ∈ keysOfV (ts.foldl (fun acc t => add_dependency acc c t) v) ↔
      m ∈ keysOfV v ∨ (m = c ∧ ts ≠ []) := by
  induction ts generalizing v with
  | nil => simp
  | cons t rest ih =>
    simp only [List.foldl_cons, ih, keys_add_dependency]
    constructor
    · rintro ((h | h) | ⟨h, _⟩)
      · exact Or.inl h
      · exact Or.inr ⟨h, by simp⟩
      · exact Or.inr ⟨h, by simp⟩
    · rintro (h | ⟨h, _⟩)
      · exact Or.inl (Or.inl h)
      · exact Or.inl (Or.inr h)

theorem fullpaths_foldl_add (ts : List PyStr) (v : Visitor) (c : PyStr) :
    (ts.foldl (fun acc t => add_dependency acc c t) v).fullpaths = v.fullpaths := by
  induction ts generalizing v with
  | nil => rfl
  | cons t rest ih => simp only [List.foldl_cons, ih, fullpaths_add_dependency]

theorem from_none_spec (c : PyStr) (level : Int) :
    ∀ (names : List PyStr) (v v' : Visitor),
    names.foldlM (fromImportStep c level) v = .ok v' →
    v'.fullpaths = v.fullpaths
    ∧ (∀ m x, x ∈ depsOf v' m ↔ x ∈ depsOf v m ∨
        (m = c ∧ ∃ n ∈ names, ∃ a, resolve c n level = .ok a ∧ (x = a ∨ x = a ++ initSuffix)))
    ∧ (∀ m, m ∈ keysOfV v' ↔ m ∈ keysOfV v ∨ (m = c ∧ names ≠ [])) := by
  intro names
  induction names with
  | nil =>
    intro v v' h
    replace h : Except.ok v = Except.ok v' := h
    injection h with h2
    subst h2
    simp
  | cons n rest ih =>
    intro v v' h
    rw [List.foldlM_cons] at h
    cases hr : resolve c n level with
    | error e =>
      simp only [fromImportStep, hr] at h
      replace h : (Except.error e : Except PyErr Visitor) = Except.ok v' := h
      exact Except.noConfusion h
    | ok a =>
      simp only [fromImportStep, hr] at h
      replace h : rest.foldlM (fromImportStep c level) (add_dependency v c a) = .ok v' := h
      obtain ⟨hfull, hdeps, hkeys⟩ := ih (add_dependency v c a) v' h
      refine ⟨hfull.trans (fullpaths_add_dependency v c a), ?_, ?_⟩
      · intro m x
        rw [hdeps m x, depsOf_add_dependency]
        simp only [List.mem_cons, exists_eq_or_imp, hr, Except.ok.injEq]
        constructor
        · rintro ((h1 | ⟨h1, h2⟩) | ⟨h1, h2⟩)
          · exact Or.inl h1
          · exact Or.inr ⟨h1, Or.inl ⟨a, rfl, h2⟩⟩
          · exact Or.inr ⟨h1, Or.inr h2⟩
        · rintro (h1 | ⟨h1, ⟨a2, ha2, h2⟩ | h2⟩)
          · exact Or.inl (Or.inl h1)
          · exact Or.inl (Or.inr ⟨h1, ha2 ▸ h2⟩)
          · exact Or.inr ⟨h1, h2⟩
      · intro m
        rw [hkeys m, keys_add_dependency]
        constructor
        · rintro ((h1 | h1) | ⟨h1, _⟩)
          · exact Or.inl h1
          · exact Or.inr ⟨h1, by simp⟩
          · exact Or.inr ⟨h1, by simp⟩
        · rintro (h1 | ⟨h1, _⟩)
          · exact Or.inl (Or.inl h1)
          · exact Or.inl (Or.inr h1)

theorem visitStmt_spec (st : ImportStmt) (v : Visitor) (c : PyStr) (v' : Visitor)
    (h : visitStmt v c st = .ok v') :
    v'.fullpaths = v.fullpaths
    ∧ (∀ m x, x ∈ depsOf v' m ↔ x ∈ depsOf v m ∨ (m = c ∧ stmtAdds c st x))
    ∧ (∀ m, m ∈ keysOfV v' ↔ m ∈ keysOfV v ∨ (m = c ∧ stmtKeyAdds st)) := by
  cases st with
  | imp names =>
    replace h : Except.ok (visit_Import v c names) = Except.ok v' := h
    injection h with h2
    subst h2
    exact ⟨fullpaths_foldl_add names v c, fun m x => depsOf_foldl_add names v c m x,
      fun m => keys_foldl_add names v c m⟩
  | impFrom mod level names =>
    cases mod with
    | some mref =>
      replace h : (match resolve c mref level with
          | Except.error e => (Except.error e : Except PyErr Visitor)
          | Except.ok absname => Except.ok (add_dependency v c absname)) = Except.ok v' := h
      cases hr : resolve c mref level with
      | error e =>
        rw [hr] at h
        exact Except.noConfusion h
      | ok a =>
        rw [hr] at h
        replace h : Except.ok (add_dependency v c a) = Except.ok v' := h
        injection h with h2
        subst h2
        refine ⟨rfl, ?_, ?_⟩
        · intro m x
          rw [depsOf_add_dependency]
          simp only [stmtAdds, hr, Except.ok.injEq]
          constructor
          · rintro (h1 | ⟨h1, h2⟩)
            · exact Or.inl h1
            · exact Or.inr ⟨h1, a, rfl, h2⟩
          · rintro (h1 | ⟨h1, a2, ha2, h2⟩)
            · exact Or.inl h1
            · exact Or.inr ⟨h1, ha2 ▸ h2⟩
        · intro m
          rw [keys_add_dependency]
          simp [stmtKeyAdds]
    | none =>
      replace h : names.foldlM (fromImportStep c level) v = .ok v' := h
      obtain ⟨hfull, hdeps, hkeys⟩ := from_none_spec c level names v v' h
      exact ⟨hfull, fun m x => by rw [hdeps m x]; simp [stmtAdds],
        fun m => by rw [hkeys m]; simp [stmtKeyAdds]⟩

theorem body_spec (body : List ImportStmt) (c : PyStr) :
    ∀ (w w' : Visitor),
    body.foldlM (fun acc st => visitStmt acc c st) w = .ok w' →
    w'.fullpaths = w.fullpaths
    ∧ (∀ m x, x ∈ depsOf w' m ↔ x ∈ depsOf w m ∨ (m = c ∧ ∃ st ∈ body, stmtAdds c st x))
    ∧ (∀ m, m ∈ keysOfV w' ↔ m ∈ keysOfV w ∨ (m = c ∧ ∃ st ∈ body, stmtKeyAdds st)) := by
  induction body with
  | nil =>
    intro w w' h
    replace h : Except.ok w = Except.ok w' := h
    injection h with h2
    subst h2
    simp
  | cons st rest ih =>
    intro w w' h
    rw [List.foldlM_cons] at h
    cases hs : visitStmt w c st with
    | error e =>
      rw [hs] at h
      replace h : (Except.error e : Except PyErr Visitor) = Except.ok w' := h
      exact Except.noConfusion h
    | ok w1 =>
      rw [hs] at h
      replace h : rest.foldlM (fun acc st => visitStmt acc c st) w1 = .ok w' := h
      obtain ⟨hfull1, hdeps1, hkeys1⟩ := visitStmt_spec st w c w1 hs
      obtain ⟨hfull2, hdeps2, hkeys2⟩ := ih w1 w' h
      refine ⟨hfull2.trans hfull1, ?_, ?_⟩
      · intro m x
        rw [hdeps2 m x, hdeps1 m x]
        simp only [List.mem_cons, exists_eq_or_imp]
        tauto
      · intro m
        rw [hkeys2 m, hkeys1 m]
        simp only [List.mem_cons, exists_eq_or_imp]
        tauto

theorem processFile_spec (v : Visitor) (f : PyFile) (v' : Visitor)
    (h : processFile v f = .ok v') :
    ∃ m, filename_to_module_name f.path = .ok m
    ∧ (∀ mm, mm ∈ v'.fullpaths.map Prod.fst ↔ mm ∈ v.fullpaths.map Prod.fst ∨ mm = m)
    ∧ (∀ mm x, x ∈ depsOf v' mm ↔ x ∈ depsOf v mm ∨ (mm = m ∧ ∃ st ∈ f.body, stmtAdds m st x))
    ∧ (∀ mm, mm ∈ keysOfV v' ↔ mm ∈ keysOfV v ∨ (mm = m ∧ ∃ st ∈ f.body, stmtKeyAdds st)) := by
  unfold processFile at h
  cases hf : filename_to_module_name f.path with
  | error e => rw [hf] at h; exact Except.noConfusion h
  | ok m =>
    rw [hf] at h
    obtain ⟨hfull, hdeps, hkeys⟩ :=
      body_spec f.body m ⟨v.modules, setKey v.fullpaths m f.path⟩ v' h
    refine ⟨m, rfl, ?_, ?_, ?_⟩
    · intro mm
      rw [hfull]
      exact keys_setKey v.fullpaths m f.path mm
    · intro mm x
      exact hdeps mm x
    · intro mm
      exact hkeys mm

theorem analyzeFrom_spec : ∀ (fs : List PyFile) (v v' : Visitor),
    analyzeFrom v fs = .ok v' →
    (∀ m x, x ∈ depsOf v' m ↔ x ∈ depsOf v m ∨ ∃ f ∈ fs, fileAdds f m x)
    ∧ (∀ m, m ∈ keysOfV v' ↔ m ∈ keysOfV v ∨ ∃ f ∈ fs, fileKeyAdds f m)
    ∧ (∀ m, m ∈ v'.fullpaths.map Prod.fst ↔
        m ∈ v.fullpaths.map Prod.fst ∨ ∃ f ∈ fs, fileReg f m) := by
  intro fs
  induction fs with
  | nil =>
    intro v v' h
    replace h : Except.ok v = Except.ok v' := h
    injection h with h2
    subst h2
    simp
  | cons f rest ih =>
    intro v v' h
    unfold analyzeFrom at h
    rw [List.foldlM_cons] at h
    cases hp : processFile v f with
    | error e =>
      rw [hp] at h
      replace h : (Except.error e : Except PyErr Visitor) = Except.ok v' := h
      exact Except.noConfusion h
    | ok v1 =>
      rw [hp] at h
      replace h : analyzeFrom v1 rest = .ok v' := h
      obtain ⟨m, hm, hfull, hdeps, hkeys⟩ := processFile_spec v f v1 hp
      obtain ⟨ih1, ih2, ih3⟩ := ih v1 v' h
      have hAdds : ∀ mm x, fileAdds f mm x ↔ (mm = m ∧ ∃ st ∈ f.body, stmtAdds m st x) := by
        intro mm x
        unfold fileAdds
        rw [hm]
        simp only [Except.ok.injEq]
        constructor
        · rintro ⟨h1, h2⟩
          subst h1
          exact ⟨rfl, h2⟩
        · rintro ⟨h1, h2⟩
          subst h1
          exact ⟨rfl, h2⟩
      have hKA : ∀ mm, fileKeyAdds f mm ↔ (mm = m ∧ ∃ st ∈ f.body, stmtKeyAdds st) := by
        intro mm
        unfold fileKeyAdds
        rw [hm]
        simp only [Except.ok.injEq]
        constructor
        · rintro ⟨h1, h2⟩
          subst h1
          exact ⟨rfl, h2⟩
        · rintro ⟨h1, h2⟩
          subst h1
          exact ⟨rfl, h2⟩
      have hReg : ∀ mm, fileReg f mm ↔ mm = m := by
        intro mm
        unfold fileReg
        rw [hm]
        simp only [Except.ok.injEq]
        constructor
        · intro h1; exact h1.symm
        · intro h1; exact h1.symm
      refine ⟨?_, ?_, ?_⟩
      · intro mm x
        rw [ih1 mm x, hdeps mm x]
        simp only [List.mem_cons, exists_eq_or_imp, hAdds]
        exact or_assoc
      · intro mm
        rw [ih2 mm, hkeys mm]
        simp only [List.mem_cons, exists_eq_or_imp, hKA]
        exact or_assoc
      · intro mm
        rw [ih3 mm, hfull mm]
        simp only [List.mem_cons, exists_eq_or_imp, hReg]
        exact or_assoc

/-- C2 counterexample: analyzing a single file with no imports registers a
Module Record for `"m"` but leaves the Module Graph without the key `"m"`,
so the two key sets differ. -/
theorem c2_counterexample :
    analyze [PyFile.mk ['m', '.', 'p', 'y'] []] =
      .ok ⟨[], [(['m'], ['m', '.', 'p', 'y'])]⟩ ∧
    ['m'] ∈ [(['m'], ['m', '.', 'p', 'y'])].map Prod.fst ∧
    ['m'] ∉ ([] : List (PyStr × List PyStr)).map Prod.fst := by
  refine ⟨?_, ?_, ?_⟩ <;> decide

/-- C2 (amended): after `analyze` completes, every key of the Module Graph
has a Module Record — `keys(self.modules) ⊆ keys(self.fullpaths)`; the
converse inclusion fails for analyzed files that record no import. -/
theorem c2_graph_keys_have_records (files : List PyFile) (v : Visitor)
    (h : analyze files = .ok v) :
    ∀ m, m ∈ keysOfV v → m ∈ v.fullpaths.map Prod.fst := by
  intro m hm
  obtain ⟨_, h2, h3⟩ := analyzeFrom_spec files ⟨[], []⟩ v h
  rcases (h2 m).mp hm with h4 | ⟨f, hf, hreg, _⟩
  · simp [keysOfV] at h4
  · exact (h3 m).mpr (Or.inr ⟨f, hf, hreg⟩)

/-- Witness for C2's amended statement on a one-file run. -/
theorem c2_graph_keys_have_records_witness :
    ['a'] ∈ (Visitor.mk
      [(['a'], [['b'], ['b', '.', '_', '_', 'i', 'n', 'i', 't', '_', '_']])]
      [(['a'], ['a', '.', 'p', 'y'])]).fullpaths.map Prod.fst :=
  c2_graph_keys_have_records [PyFile.mk ['a', '.', 'p', 'y'] [ImportStmt.imp [['b']]]]
    (Visitor.mk
      [(['a'], [['b'], ['b', '.', '_', '_', 'i', 'n', 'i', 't', '_', '_']])]
      [(['a'], ['a', '.', 'p', 'y'])])
    (by decide) ['a'] (by decide)

/-- C6: once `add_dependency` records target `t` under module `c`, then after
the remaining statements of the current file and all remaining files are
processed, both `t` and `t ++ ".__init__"` are members of the final Module
Graph entry of `c` (dependency sets only grow). -/
theorem c6_over_approximation (v : Visitor) (c t : PyStr) (rest : List ImportStmt)
    (files : List PyFile) (v₁ v₂ : Visitor)
    (h1 : rest.foldlM (fun acc st => visitStmt acc c st) (add_dependency v c t) = .ok v₁)
    (h2 : analyzeFrom v₁ files = .ok v₂) :
    t ∈ depsOf v₂ c ∧ (t ++ initSuffix) ∈ depsOf v₂ c := by
  have hbase_t : t ∈ depsOf (add_dependency v c t) c :=
    (depsOf_add_dependency v c t c t).mpr (Or.inr ⟨rfl, Or.inl rfl⟩)
  have hbase_i : (t ++ initSuffix) ∈ depsOf (add_dependency v c t) c :=
    (depsOf_add_dependency v c t c (t ++ initSuffix)).mpr (Or.inr ⟨rfl, Or.inr rfl⟩)
  obtain ⟨_, hdeps, _⟩ := body_spec rest c (add_dependency v c t) v₁ h1
  obtain ⟨hdeps2, _, _⟩ := analyzeFrom_spec files v₁ v₂ h2
  exact ⟨(hdeps2 c t).mpr (Or.inl ((hdeps c t).mpr (Or.inl hbase_t))),
    (hdeps2 c (t ++ initSuffix)).mpr (Or.inl ((hdeps c (t ++ initSuffix)).mpr (Or.inl hbase_i)))⟩

/-- Witness for C6 on the immediate recording of `"b"` under `"a"`. -/
theorem c6_over_approximation_witness :
    ['b'] ∈ depsOf (Visitor.mk
      [(['a'], [['b'], ['b', '.', '_', '_', 'i', 'n', 'i', 't', '_', '_']])] []) ['a'] ∧
    (['b'] ++ initSuffix) ∈ depsOf (Visitor.mk
      [(['a'], [['b'], ['b', '.', '_', '_', 'i', 'n', 'i', 't', '_', '_']])] []) ['a'] :=
  c6_over_approximation ⟨[], []⟩ ['a'] ['b'] [] []
    (Visitor.mk [(['a'], [['b'], ['b', '.', '_', '_', 'i', 'n', 'i', 't', '_', '_']])] [])
    (Visitor.mk [(['a'], [['b'], ['b', '.', '_', '_', 'i', 'n', 'i', 't', '_', '_']])] [])
    (by decide) (by decide)

/-- C9: for two orderings of the same files, `analyze` produces Module
Graphs with the same key set and, key by key, dependency sets with the same
members; only insertion order (and `fullpaths` order) can differ. -/
theorem c9_order_independent (fs₁ fs₂ : List PyFile) (v₁ v₂ : Visitor)
    (hperm : fs₁.Perm fs₂) (h1 : analyze fs₁ = .ok v₁) (h2 : analyze fs₂ = .ok v₂) :
    (∀ m, m ∈ keysOfV v₁ ↔ m ∈ keysOfV v₂) ∧
    (∀ m x, x ∈ depsOf v₁ m ↔ x ∈ depsOf v₂ m) := by
  obtain ⟨d1, k1, _⟩ := analyzeFrom_spec fs₁ ⟨[], []⟩ v₁ h1
  obtain ⟨d2, k2, _⟩ := analyzeFrom_spec fs₂ ⟨[], []⟩ v₂ h2
  constructor
  · intro m
    rw [k1 m, k2 m]
    constructor
    · rintro (h | ⟨f, hf, hka⟩)
      · simp [keysOfV] at h
      · exact Or.inr ⟨f, hperm.mem_iff.mp hf, hka⟩
    · rintro (h | ⟨f, hf, hka⟩)
      · simp [keysOfV] at h
      · exact Or.inr ⟨f, hperm.mem_iff.mpr hf, hka⟩
  · intro m x
    rw [d1 m x, d2 m x]
    constructor
    · rintro (h | ⟨f, hf, hfa⟩)
      · simp [depsOf, lookupKey] at h
      · exact Or.inr ⟨f, hperm.mem_iff.mp hf, hfa⟩
    · rintro (h | ⟨f, hf, hfa⟩)
      · simp [depsOf, lookupKey] at h
      · exact Or.inr ⟨f, hperm.mem_iff.mpr hf, hfa⟩

/-- Witness for C9 on a two-file run and its swap. -/
theorem c9_order_independent_witness :
    (['b'] ∈ depsOf (Visitor.mk
        [(['a'], [['b'], ['b', '.', '_', '_', 'i', 'n', 'i', 't', '_', '_']])]
        [(['a'], ['a', '.', 'p', 'y']), (['b'], ['b', '.', 'p', 'y'])]) ['a'] ↔
      ['b'] ∈ depsOf (Visitor.mk
        [(['a'], [['b'], ['b', '.', '_', '_', 'i', 'n', 'i', 't', '_', '_']])]
        [(['b'], ['b', '.', 'p', 'y']), (['a'], ['a', '.', 'p', 'y'])]) ['a']) :=
  (c9_order_independent
    [PyFile.mk ['a', '.', 'p', 'y'] [ImportStmt.imp [['b']]], PyFile.mk ['b', '.', 'p', 'y'] []]
    [PyFile.mk ['b', '.', 'p', 'y'] [], PyFile.mk ['a', '.', 'p', 'y'] [ImportStmt.imp [['b']]]]
    (Visitor.mk
      [(['a'], [['b'], ['b', '.', '_', '_', 'i', 'n', 'i', 't', '_', '_']])]
      [(['a'], ['a', '.', 'p', 'y']), (['b'], ['b', '.', 'p', 'y'])])
    (Visitor.mk
      [(['a'], [['b'], ['b', '.', '_', '_', 'i', 'n', 'i', 't', '_', '_']])]
      [(['b'], ['b', '.', 'p', 'y']), (['a'], ['a', '.', 'p', 'y'])])
    (List.Perm.swap _ _ _) (by decide) (by decide)).2 ['a'] ['b']

/-! Lemmas about the Graph Materializer. -/

theorem getName_split (m fp : PyStr) (df : Bool) (h : rfindChar '.' m ≠ some 0) :
    Node.getName ⟨(split_module_name m).1, (split_module_name m).2, fp, df⟩ = m := by
  cases hr : rfindChar '.' m with
  | none => simp [Node.getName, split_module_name, hr]
  | some k =>
    cases k with
    | zero => exact absurd hr h
    | succ k2 =>
      have hm : m ≠ [] := by
        intro he
        rw [he] at hr
        simp [rfindChar] at hr
      have hns : m.take (k2 + 1) ≠ [] := by
        rw [Ne, List.take_eq_nil_iff]
        simp [hm]
      simp only [Node.getName, split_module_name, hr]
      rw [if_neg hns]
      exact (rfindChar_some_split '.' m (k2 + 1) hr).1

theorem buildNodes_spec (fps : List (PyStr × PyStr)) :
    ∀ (entries : List (PyStr × List PyStr)) (acc nodes : List (PyStr × List Node)),
    buildNodes fps entries acc = .ok nodes →
    (∀ p ∈ acc, ∃ fp, lookupKey fps p.1 = some fp ∧
        p.2 = [⟨(split_module_name p.1).1, (split_module_name p.1).2, dirname fp, true⟩]) →
    ∀ p ∈ nodes, ∃ fp, lookupKey fps p.1 = some fp ∧
        p.2 = [⟨(split_module_name p.1).1, (split_module_name p.1).2, dirname fp, true⟩] := by
  intro entries
  induction entries with
  | nil =>
    intro acc nodes h hacc
    replace h : Except.ok acc = Except.ok nodes := h
    injection h with h2
    subst h2
    exact hacc
  | cons e rest ih =>
    intro acc nodes h hacc
    cases hn : mkNodeFor fps e.1 with
    | error err =>
      unfold buildNodes at h
      rw [hn] at h
      exact Except.noConfusion h
    | ok n =>
      replace h : buildNodes fps rest (setKey acc e.1 (n :: [])) = .ok nodes := by
        unfold buildNodes at h
        rw [hn] at h
        exact h
      apply ih _ nodes h
      intro p hp
      rcases mem_setKey hp with hp1 | hp1
      · exact hacc p hp1
      · unfold mkNodeFor at hn
        cases hl : lookupKey fps e.1 with
        | none =>
          rw [hl] at hn
          exact Except.noConfusion hn
        | some fp =>
          rw [hl] at hn
          injection hn with hn2
          subst hp1
          exact ⟨fp, hl, by rw [← hn2]⟩

theorem buildNodes_keys (fps : List (PyStr × PyStr)) :
    ∀ (entries : List (PyStr × List PyStr)) (acc nodes : List (PyStr × List Node)),
    buildNodes fps entries acc = .ok nodes →
    ∀ p ∈ nodes, p.1 ∈ acc.map Prod.fst ∨ p.1 ∈ entries.map Prod.fst := by
  intro entries
  induction entries with
  | nil =>
    intro acc nodes h p hp
    replace h : Except.ok acc = Except.ok nodes := h
    injection h with h2
    subst h2
    exact Or.inl (List.mem_map.mpr ⟨p, hp, rfl⟩)
  | cons e rest ih =>
    intro acc nodes h p hp
    cases hn : mkNodeFor fps e.1 with
    | error err =>
      unfold buildNodes at h
      rw [hn] at h
      exact Except.noConfusion h
    | ok n =>
      replace h : buildNodes fps rest (setKey acc e.1 (n :: [])) = .ok nodes := by
        unfold buildNodes at h
        rw [hn] at h
        exact h
      rcases ih _ nodes h p hp with h1 | h1
      · rcases (keys_setKey acc e.1 (n :: []) p.1).mp h1 with h2 | h2
        · exact Or.inl h2
        · exact Or.inr (by simp [h2])
      · exact Or.inr (by simp [h1])

theorem addUsesEdge_spec (nodes : List (PyStr × List Node))
    (acc : List (Node × List Node)) (nf nt : Node)
    (hacc : ∀ q ∈ acc, (∃ mm l, lookupKey nodes mm = some l ∧ q.1 ∈ l) ∧
        ∀ u ∈ q.2, ∃ mm l, lookupKey nodes mm = some l ∧ u ∈ l)
    (hf : ∃ mm l, lookupKey nodes mm = some l ∧ nf ∈ l)
    (ht : ∃ mm l, lookupKey nodes mm = some l ∧ nt ∈ l) :
    ∀ q ∈ addUsesEdge acc nf nt, (∃ mm l, lookupKey nodes mm = some l ∧ q.1 ∈ l) ∧
      ∀ u ∈ q.2, ∃ mm l, lookupKey nodes mm = some l ∧ u ∈ l := by
  intro q hq
  unfold addUsesEdge at hq
  rcases mem_setKey hq with hq1 | hq1
  · exact hacc q hq1
  · subst hq1
    refine ⟨hf, ?_⟩
    intro u hu
    rcases (mem_addToSet _ u nt).mp hu with hu1 | hu1
    · cases hl : lookupKey acc nf with
      | none =>
        rw [hl] at hu1
        simp at hu1
      | some s =>
        rw [hl] at hu1
        simp only [Option.getD_some] at hu1
        exact (hacc (nf, s) (lookupKey_mem hl)).2 u hu1
    · subst hu1
      exact ht

theorem edges_inner_spec (nodes : List (PyStr × List Node)) (mkey : PyStr) :
    ∀ (ds : List PyStr) (acc : List (Node × List Node)),
    (∀ q ∈ acc, (∃ mm l, lookupKey nodes mm = some l ∧ q.1 ∈ l) ∧
        ∀ u ∈ q.2, ∃ mm l, lookupKey nodes mm = some l ∧ u ∈ l) →
    ∀ q ∈ ds.foldl (fun acc2 d =>
        match lookupKey nodes mkey, lookupKey nodes d with
        | some (nf :: _), some (nt :: _) => addUsesEdge acc2 nf nt
        | _, _ => acc2) acc,
      (∃ mm l, lookupKey nodes mm = some l ∧ q.1 ∈ l) ∧
        ∀ u ∈ q.2, ∃ mm l, lookupKey nodes mm = some l ∧ u ∈ l := by
  intro ds
  induction ds with
  | nil =>
    intro acc hacc
    simpa using hacc
  | cons d rest ih =>
    intro acc hacc
    rw [List.foldl_cons]
    apply ih
    cases h1 : lookupKey nodes mkey with
    | none => simpa [h1] using hacc
    | some lf =>
      cases lf with
      | nil => simpa [h1] using hacc
      | cons nf lfrest =>
        cases h2 : lookupKey nodes d with
        | none => simpa [h1, h2] using hacc
        | some lt =>
          cases lt with
          | nil => simpa [h1, h2] using hacc
          | cons nt ltrest =>
            simp only [h1, h2]
            exact addUsesEdge_spec nodes acc nf nt hacc
              ⟨mkey, nf :: lfrest, h1, List.mem_cons_self nf lfrest⟩
              ⟨d, nt :: ltrest, h2, List.mem_cons_self nt ltrest⟩

theorem buildEdges_spec (nodes : List (PyStr × List Node)) :
    ∀ (entries : List (PyStr × List PyStr)) (acc : List (Node × List Node)),
    (∀ q ∈ acc, (∃ mm l, lookupKey nodes mm = some l ∧ q.1 ∈ l) ∧
        ∀ u ∈ q.2, ∃ mm l, lookupKey nodes mm = some l ∧ u ∈ l) →
    ∀ q ∈ buildEdges nodes entries acc,
      (∃ mm l, lookupKey nodes mm = some l ∧ q.1 ∈ l) ∧
        ∀ u ∈ q.2, ∃ mm l, lookupKey nodes mm = some l ∧ u ∈ l := by
  intro entries
  induction entries with
  | nil =>
    intro acc hacc
    simpa [buildEdges] using hacc
  | cons e rest ih =>
    intro acc hacc
    unfold buildEdges
    exact ih _ (edges_inner_spec nodes e.1 e.2 acc hacc)

/-- C5 counterexample: on the Module Graph `{".x": {".x"}}` (the module name
`".x"` arises from analyzing the path `"/x.py"`), `prepare_graph` completes
and stores the self-edge on the node of `".x"`, but the node's qualified
name `"x"` is not a key of `nodes`, so the consistency assertion
`m.get_name() in self.nodes` fails. -/
theorem c5_counterexample :
    prepare_graph ⟨[(['.', 'x'], [['.', 'x']])], [(['.', 'x'], ['x', '.', 'p', 'y'])]⟩ =
      .ok ([(['.', 'x'], [Node.mk [] ['x'] [] true])],
        [(Node.mk [] ['x'] [] true, [Node.mk [] ['x'] [] true])]) ∧
    (Node.mk [] ['x'] [] true, [Node.mk [] ['x'] [] true]) ∈
      [(Node.mk [] ['x'] [] true, [Node.mk [] ['x'] [] true])] ∧
    Node.getName (Node.mk [] ['x'] [] true) ∉
      [(['.', 'x'], [Node.mk [] ['x'] [] true])].map Prod.fst := by
  refine ⟨?_, ?_, ?_⟩ <;> decide

/-- C5 (amended): for every visitor state whose Module Graph keys are not of
the degenerate form where the only dot is a leading dot (so the node's
reconstructed qualified name equals the key), when `prepare_graph`
completes, the qualified names of both endpoints of every stored uses edge
are keys of `nodes`, i.e. the internal consistency assertions pass. -/
theorem c5_edges_materialized (v : Visitor) (nodes : List (PyStr × List Node))
    (edges : List (Node × List Node))
    (h : prepare_graph v = .ok (nodes, edges))
    (hkeys : ∀ m ∈ v.modules.map Prod.fst, rfindChar '.' m ≠ some 0) :
    ∀ q ∈ edges, Node.getName q.1 ∈ nodes.map Prod.fst ∧
      ∀ u ∈ q.2, Node.getName u ∈ nodes.map Prod.fst := by
  unfold prepare_graph at h
  cases hb : buildNodes v.fullpaths v.modules [] with
  | error e =>
    rw [hb] at h
    exact Except.noConfusion h
  | ok nodes0 =>
    rw [hb] at h
    injection h with h2
    have hn : nodes = nodes0 := (congrArg Prod.fst h2).symm
    subst hn
    have he : edges = buildEdges nodes v.modules [] := (congrArg Prod.snd h2).symm
    subst he
    have hP : ∀ x : Node, (∃ mm l, lookupKey nodes mm = some l ∧ x ∈ l) →
        Node.getName x ∈ nodes.map Prod.fst := by
      rintro x ⟨mm, l, hl, hxl⟩
      obtain ⟨fp, hfp, hleq⟩ :=
        buildNodes_spec v.fullpaths v.modules [] nodes hb (by simp) (mm, l) (lookupKey_mem hl)
      have hleq2 : l =
          [(⟨(split_module_name mm).1, (split_module_name mm).2, dirname fp, true⟩ : Node)] := hleq
      have hx : x = ⟨(split_module_name mm).1, (split_module_name mm).2, dirname fp, true⟩ := by
        rw [hleq2] at hxl
        simpa using hxl
      have hmm : mm ∈ v.modules.map Prod.fst := by
        rcases buildNodes_keys v.fullpaths v.modules [] nodes hb (mm, l) (lookupKey_mem hl)
          with hk | hk
        · simp at hk
        · exact hk
      rw [hx, getName_split mm _ _ (hkeys mm hmm)]
      exact lookupKey_mem_keys hl
    have hInv := buildEdges_spec nodes v.modules [] (by intro q hq; simp at hq)
    intro q hq
    obtain ⟨h5, h6⟩ := hInv q hq
    exact ⟨hP q.1 h5, fun u hu => hP u (h6 u hu)⟩

/-- Witness for C5's amended statement on the one-module graph
`{"a": {"a"}}`. -/
theorem c5_edges_materialized_witness :
    Node.getName (Node.mk [] ['a'] [] true) ∈
      [(['a'], [Node.mk [] ['a'] [] true])].map Prod.fst ∧
    ∀ u ∈ [Node.mk [] ['a'] [] true], Node.getName u ∈
      [(['a'], [Node.mk [] ['a'] [] true])].map Prod.fst :=
  c5_edges_materialized ⟨[(['a'], [['a']])], [(['a'], ['a', '.', 'p', 'y'])]⟩
    [(['a'], [Node.mk [] ['a'] [] true])]
    [(Node.mk [] ['a'] [] true, [Node.mk [] ['a'] [] true])]
    (by decide) (by decide)
    (Node.mk [] ['a'] [] true, [Node.mk [] ['a'] [] true]) (by decide)

end Modvis
